import Mathlib

set_option synthInstance.maxSize 1024

/-!
Verification development for `dace/optimization/data_layout_tuner.py`.

The tuner's data model and operations are shallowly embedded:

* Python dicts (`cutout_sdfg.arrays`, the tuning results, the on-disk cache)
  become association lists that preserve insertion order, as Python dicts do.
* The `space` generator becomes an explicit recursion (`spaceLoop`) that
  threads the mutable `cutout_sdfg._arrays` state from one configuration to
  the next and records, per yield, the descriptor state visible to the
  consumer at that yield.
* Raised exceptions (`KeyError`, `ValueError`, `json.JSONDecodeError`, and
  errors of the external measurement collaborator) become `Except` results.
* The external collaborators (cutout extraction, instrumented-data lookup,
  `self.measure`) are parameters: the measurement collaborator is a function
  from the invocation counter to a possibly-failing cost, which also lets us
  count invocations.
-/

/-- Errors the tuner can raise while sweeping, mirroring the Python
exceptions that can escape `space`, `setup_tuning_groups` and `optimize`. -/
inductive TunerError where
  | keyError
  | valueError
  | jsonDecode
  | executionError
deriving DecidableEq, Repr

/-- Decidable equality for `Except` results, used to evaluate the embedded
operations on concrete inputs. -/
instance {e a : Type} [DecidableEq e] [DecidableEq a] :
    DecidableEq (Except e a) := fun x y =>
  match x, y with
  | .error u, .error v =>
    if h : u = v then isTrue (by rw [h]) else isFalse (by simp [h])
  | .error _, .ok _ => isFalse (by simp)
  | .ok _, .error _ => isFalse (by simp)
  | .ok u, .ok v =>
    if h : u = v then isTrue (by rw [h]) else isFalse (by simp [h])

/-- Measured cost returned by the execution collaborator (`self.measure`). -/
abbrev Cost := ℚ

/-- Array descriptor: the fields of `dace.data.Array` that the tuner reads
and writes (`shape`, `strides`, `total_size`, `transient`). -/
structure ArrayDesc where
  shape : List Nat
  strides : List Nat
  total_size : Nat
  transient : Bool
deriving DecidableEq, Repr

/-- `cutout_sdfg.arrays`: an insertion-ordered dictionary from array name to
descriptor, embedded as an association list. -/
abbrev ArrayDict := List (String × ArrayDesc)

/-- First-match lookup in an association list (`d[k]`, returning `none`
where Python raises `KeyError`). -/
def alistGet {α β : Type} [DecidableEq α] (l : List (α × β)) (k : α) :
    Option β :=
  (l.find? (fun kv => kv.1 = k)).map (fun kv => kv.2)

/-- Dictionary update `d[k] = v`: replace the value at an existing key in
place, otherwise append the new binding (Python dict assignment). -/
def alistSet {α β : Type} [DecidableEq α] (l : List (α × β)) (k : α) (v : β) :
    List (α × β) :=
  if l.any (fun kv => kv.1 = k) then
    l.map (fun kv => if kv.1 = k then (kv.1, v) else kv)
  else
    l ++ [(k, v)]

/-- Modelled from the spec: `dace.data.Data.strides_from_layout` is not under
`src/`; the spec states the stride-from-layout rule as: dimension `i`
occupies position `permutation[i]` in the physical layout, strides are the
row-major strides of the permuted shape, and `total_size` is the product of
the shape. -/
def strides_from_layout (shape : List Nat) (perm : List Nat) :
    List Nat × Nat :=
  let n := shape.length
  let physDim : Nat → Nat := fun j =>
    match (List.range n).find? (fun i => perm.getD i n = j) with
    | some i => shape.getD i 1
    | none => 1
  let strideAt : Nat → Nat := fun j =>
    ((List.range n).filter (fun j2 => j < j2)).foldr
      (fun j2 acc => physDim j2 * acc) 1
  ((List.range n).map (fun i => strideAt (perm.getD i n)),
   shape.foldr (fun a b => a * b) 1)

/-- One step of the group-dimensionality verification loop in `space`
(lines 63-72): look up the member (a missing key is Python's `KeyError`),
compare its rank against the running `ndims`, raising `ValueError` on a
mismatch, then record its rank as the new `ndims`. -/
def groupNdimsStep (arrays : ArrayDict) (nd : Option Nat) (member : String) :
    Except TunerError (Option Nat) :=
  match alistGet arrays member with
  | none => .error .keyError
  | some desc =>
    match nd with
    | some d =>
      if desc.shape.length ≠ d then .error .valueError
      else .ok (some desc.shape.length)
    | none => .ok (some desc.shape.length)

/-- Fold of `groupNdimsStep` over the members of one group. -/
def groupNdimsAux (arrays : ArrayDict) :
    Option Nat → List String → Except TunerError (Option Nat)
  | nd, [] => .ok nd
  | nd, m :: ms =>
    match groupNdimsStep arrays nd m with
    | .error e => .error e
    | .ok nd2 => groupNdimsAux arrays nd2 ms

/-- Dimensionality of one tuning group as computed by `space`: the common
rank of its members, `0` for an empty group (`if ndims is None: ndims = 0`). -/
def groupNdims (arrays : ArrayDict) (group : List String) :
    Except TunerError Nat :=
  match groupNdimsAux arrays none group with
  | .error e => .error e
  | .ok nd => .ok (nd.getD 0)

/-- `group_dims` for a list of explicitly provided groups, propagating the
first exception of the verification loop. -/
def groupDimsList (arrays : ArrayDict) :
    List (List String) → Except TunerError (List Nat)
  | [] => .ok []
  | g :: gs =>
    match groupNdims arrays g with
    | .error e => .error e
    | .ok d =>
      match groupDimsList arrays gs with
      | .error e => .error e
      | .ok ds => .ok (d :: ds)

/-- Lines 56-72 of `space`: with `groups = None` every non-transient array
forms its own singleton group and `group_dims` lists their ranks; with
explicit groups, every group is verified to be rank-homogeneous. -/
def computeGroups (arrays : ArrayDict) :
    Option (List (List String)) →
    Except TunerError (List (List String) × List Nat)
  | none =>
    let nt := arrays.filter (fun kv => !kv.2.transient)
    .ok (nt.map (fun kv => [kv.1]), nt.map (fun kv => kv.2.shape.length))
  | some groups =>
    match groupDimsList arrays groups with
    | .error e => .error e
    | .ok dims => .ok (groups, dims)

/-- Cartesian product in `itertools.product` order (leftmost factor varies
slowest). -/
def productList {α : Type} : List (List α) → List (List α)
  | [] => [[]]
  | l :: ls =>
    l.flatMap (fun x => (productList ls).map (fun rest => x :: rest))

/-- All ways to insert an element into a list, used to enumerate
permutations. -/
def insertsOf {a : Type} (x : a) : List a → List (List a)
  | [] => [[x]]
  | y :: ys => (x :: y :: ys) :: (insertsOf x ys).map (fun l => y :: l)

/-- All permutations of a list (enumerated by successive insertion). -/
def permsList {a : Type} : List a → List (List a)
  | [] => [[]]
  | x :: xs => (permsList xs).flatMap (insertsOf x)

/-- All permutations of `range dims`, the per-group layout candidates
(`itertools.permutations(list(range(dims)))`; the enumeration order differs
from CPython's lexicographic order, which no property here depends on). -/
def permsOfRange (dims : Nat) : List (List Nat) :=
  permsList (List.range dims)

/-- Inner loop of `space`, lines 86-92, for the members of one group: update
each member's strides and `total_size` from the group's permutation and add
the member to `modified_arrays`. -/
def applyMembers (gc : List Nat) :
    List String → ArrayDict × List String →
    Except TunerError (ArrayDict × List String)
  | [], acc => .ok acc
  | m :: ms, acc =>
    match alistGet acc.1 m with
    | none => .error .keyError
    | some desc =>
      let st := strides_from_layout desc.shape gc
      applyMembers gc ms
        (alistSet acc.1 m { desc with strides := st.1, total_size := st.2 },
         if m ∈ acc.2 then acc.2 else acc.2 ++ [m])

/-- Outer loop of `space`, lines 86-92: `for group, group_config in
zip(groups, config)`. -/
def applyConfigAux :
    List (List String × List Nat) → ArrayDict × List String →
    Except TunerError (ArrayDict × List String)
  | [], acc => .ok acc
  | p :: rest, acc =>
    match applyMembers p.2 p.1 acc with
    | .error e => .error e
    | .ok acc2 => applyConfigAux rest acc2

/-- Apply one joint configuration to a descriptor state, returning the new
state together with `modified_arrays`. -/
def applyConfig (st : ArrayDict) (groups : List (List String))
    (config : List (List Nat)) :
    Except TunerError (ArrayDict × List String) :=
  applyConfigAux (groups.zip config) (st, [])

/-- What the consumer of `space` observes at one `yield`: the descriptor
state `cutout_sdfg.arrays` at that moment, and the yielded set of modified
array names (as an ordered, duplicate-free list). -/
structure SpaceYield where
  arrays : ArrayDict
  modified : List String
deriving DecidableEq, Repr

instance : Inhabited SpaceYield := ⟨⟨[], []⟩⟩

/-- Configuration loop of `space`, lines 78-95, threading the mutable
`cutout_sdfg._arrays` state (`cur`): each iteration first resets that state
to a deep copy of the pristine pre-sweep `arrays`, then applies the
configuration, then yields. -/
def spaceLoop (pristine : ArrayDict) (groups : List (List String)) :
    List (List (List Nat)) → ArrayDict →
    Except TunerError (List SpaceYield × ArrayDict)
  | [], cur => .ok ([], cur)
  | c :: cs, _cur =>
    match applyConfig pristine groups c with
    | .error e => .error e
    | .ok acc =>
      match spaceLoop pristine groups cs acc.1 with
      | .error e => .error e
      | .ok rest => .ok (⟨acc.1, acc.2⟩ :: rest.1, rest.2)

/-- The `space` generator, run to completion: the list of its yields (the
Python generator's body runs only when iterated, so the group verification
error surfaces before the first yield; this is preserved here because
`computeGroups` precedes the loop). -/
def space (cutoutArrays : ArrayDict)
    (groups : Option (List (List String))) :
    Except TunerError (List SpaceYield) :=
  match computeGroups cutoutArrays groups with
  | .error e => .error e
  | .ok gd =>
    let configurations := productList (gd.2.map permsOfRange)
    match spaceLoop cutoutArrays gd.1 configurations cutoutArrays with
    | .error e => .error e
    | .ok res => .ok res.1

/-- The four grouping policies of `TuningGroups`. -/
inductive TuningGroups where
  | Separate
  | Inputs_Outputs
  | Dimension
  | Inputs_Outputs_Dimension
deriving DecidableEq, Repr

/-- An access node of the cutout as `setup_tuning_groups` reads it: the name
of the array it accesses and its in-degree in its state
(`cstate.in_degree(dnode)`). -/
structure DataNode where
  data : String
  in_degree : Nat
deriving DecidableEq, Repr

/-- One state of the cutout with its data nodes, in iteration order. -/
structure CState where
  dataNodes : List DataNode
deriving DecidableEq, Repr

/-- The cutout SDFG as the tuner reads it: its array dictionary and its
states. -/
structure Cutout where
  arrays : ArrayDict
  states : List CState
deriving DecidableEq, Repr

/-- The `groupdict: Dict[Tuple[int, int], List[str]]` of
`setup_tuning_groups`, as an insertion-ordered association list. -/
abbrev GroupDict := List ((Int × Int) × List String)

/-- `defaultdict(list)` append: `groupdict[key].append(v)`. -/
def groupAdd (gd : GroupDict) (key : Int × Int) (v : String) : GroupDict :=
  if gd.any (fun kv => kv.1 = key) then
    gd.map (fun kv => if kv.1 = key then (kv.1, kv.2 ++ [v]) else kv)
  else
    gd ++ [(key, [v])]

/-- Body of `setup_tuning_groups` (lines 101-122) over the flattened
sequence of data nodes (`for cstate in cutout.nodes(): for dnode in
cstate.data_nodes()`): skip transient arrays, skip already-seen names, and
file each first-seen non-transient array under its `(inoutgroup, dimgroup)`
bucket. -/
def setupAux (cutout : Cutout) (gb : TuningGroups) :
    List DataNode → List String → GroupDict →
    Except TunerError (List String × GroupDict)
  | [], seen, gd => .ok (seen, gd)
  | d :: ds, seen, gd =>
    match alistGet cutout.arrays d.data with
    | none => .error .keyError
    | some desc =>
      if desc.transient then setupAux cutout gb ds seen gd
      else if d.data ∈ seen then setupAux cutout gb ds seen gd
      else
        let dimgroup : Int :=
          if gb = TuningGroups.Dimension ∨
             gb = TuningGroups.Inputs_Outputs_Dimension
          then (desc.shape.length : Int) else -1
        let inoutgroup : Int :=
          if gb = TuningGroups.Inputs_Outputs ∨
             gb = TuningGroups.Inputs_Outputs_Dimension
          then (if d.in_degree = 0 then 0 else 1) else -1
        setupAux cutout gb ds (seen ++ [d.data])
          (groupAdd gd (inoutgroup, dimgroup) d.data)

/-- `setup_tuning_groups`: `None` under the `Separate` policy, otherwise the
bucket values of `groupdict` in insertion order (the Python code converts
each bucket to a `set`; membership is what matters downstream, so the
bucket's insertion order is kept as its list order here). -/
def setup_tuning_groups (cutout : Cutout) (gb : TuningGroups) :
    Except TunerError (Option (List (List String))) :=
  if gb = TuningGroups.Separate then .ok none
  else
    match setupAux cutout gb (cutout.states.flatMap (fun s => s.dataNodes))
        [] [] with
    | .error e => .error e
    | .ok res => .ok (some (res.2.map (fun kv => kv.2)))

/-- The canonical layout signature of line 167:
`'\n'.join(f'  {k}: {v.strides}' for non-transient k)`. Within one kernel's
sweep the key sequence is fixed (every configuration starts from a deep copy
of the same pristine dictionary), and each line renders its key and stride
tuple injectively, so the string is an injective rendering of the list of
`(name, strides)` pairs of the non-transient arrays; the signature is
embedded as that list. -/
def layoutSig (arrays : ArrayDict) : List (String × List Nat) :=
  (arrays.filter (fun kv => !kv.2.transient)).map
    (fun kv => (kv.1, kv.2.strides))

/-- A kernel's tuning results: the `results` dictionary mapping layout
signature to measured cost. -/
abbrev Report := List ((List (String × List Nat)) × Cost)

/-- Content of one on-disk cache file: either a valid serialization of a
report or malformed data on which `json.load` raises. -/
inductive FileContent where
  | valid (r : Report)
  | malformed
deriving DecidableEq, Repr

/-- The file system visible to `optimize`, as a map from file name to
content. -/
abbrev Fs := List (String × FileContent)

/-- Cache file name for a kernel label (line 139). -/
def cacheFile (label : String) : String := label ++ ".tuning"

/-- `json.load` on a cache file: a valid file yields its report, a malformed
one raises `json.JSONDecodeError`. -/
def jsonLoad : FileContent → Except TunerError Report
  | .valid r => .ok r
  | .malformed => .error .jsonDecode

/-- The comparison `runtime < best_runtime` where `best_runtime` starts at
`math.inf` (embedded as `none`). -/
def ltOpt (r : Cost) : Option Cost → Bool
  | none => true
  | some b => decide (r < b)

/-- Measurement loop of `optimize` (lines 162-174), consuming the yields of
`space` in order: per configuration, compute the layout signature, invoke
the execution collaborator (indexed by the running invocation counter; a
failure aborts the sweep), record `results[layout] = runtime`, and update
the best choice on strictly smaller runtime. Returns the final results,
best choice and best runtime together with the final invocation counter. -/
def sweep (mf : Nat → Except Unit Cost) :
    List SpaceYield → Report → Option (List String) → Option Cost → Nat →
    Except Unit (Report × Option (List String) × Option Cost) × Nat
  | [], res, bc, br, cnt => (.ok (res, bc, br), cnt)
  | y :: ys, res, bc, br, cnt =>
    let layout := layoutSig y.arrays
    match mf cnt with
    | .error e => (.error e, cnt + 1)
    | .ok runtime =>
      let res2 := alistSet res layout runtime
      if ltOpt runtime br then
        sweep mf ys res2 (some y.modified) (some runtime) (cnt + 1)
      else
        sweep mf ys res2 bc br (cnt + 1)

/-- One tunable kernel unit as `optimize` sees it: its node label (cache
key) and the cutout extracted for it by the external collaborator. The
argument-buffer preparation from the instrumented data report (lines
148-154) involves only external collaborators and is not modelled. -/
structure Kernel where
  label : String
  cutout : Cutout
deriving Repr

/-- Kernel loop of `optimize` (lines 138-183): per kernel, either load an
existing cache file (a malformed one raises out of `json.load`), or group,
sweep and measure, then record the results in the report and write the
cache file. An exception aborts the whole call, losing the in-memory report
but keeping the file system and the invocation counter reached so far,
which the embedding returns alongside the result. -/
def optimizeLoop (gb : TuningGroups) (mf : Nat → Except Unit Cost) :
    List Kernel → List (String × Report) → Fs → Nat →
    Except TunerError (List (String × Report)) × Fs × Nat
  | [], tr, fs, cnt => (.ok tr, fs, cnt)
  | k :: ks, tr, fs, cnt =>
    match alistGet fs (cacheFile k.label) with
    | some content =>
      match jsonLoad content with
      | .error e => (.error e, fs, cnt)
      | .ok r => optimizeLoop gb mf ks (alistSet tr k.label r) fs cnt
    | none =>
      match setup_tuning_groups k.cutout gb with
      | .error e => (.error e, fs, cnt)
      | .ok groups =>
        match space k.cutout.arrays groups with
        | .error e => (.error e, fs, cnt)
        | .ok yields =>
          match sweep mf yields [] none none cnt with
          | (.error _, cnt2) => (.error .executionError, fs, cnt2)
          | (.ok res, cnt2) =>
            optimizeLoop gb mf ks (alistSet tr k.label res.1)
              (alistSet fs (cacheFile k.label) (.valid res.1)) cnt2

/-- `optimize`: run the kernel loop from an empty tuning report and a zero
invocation counter. -/
def optimize (gb : TuningGroups) (mf : Nat → Except Unit Cost)
    (kernels : List Kernel) (fs : Fs) :
    Except TunerError (List (String × Report)) × Fs × Nat :=
  optimizeLoop gb mf kernels [] fs 0

/-- Reference semantics for one pass of the configuration loop: every
configuration's outcome computed directly from the pristine descriptors by
`applyConfig`, with no state threaded between configurations. -/
def perConfigList (pristine : ArrayDict) (groups : List (List String)) :
    List (List (List Nat)) → Except TunerError (List SpaceYield)
  | [] => .ok []
  | c :: cs =>
    match applyConfig pristine groups c with
    | .error e => .error e
    | .ok acc =>
      match perConfigList pristine groups cs with
      | .error e => .error e
      | .ok rest => .ok (⟨acc.1, acc.2⟩ :: rest)

/-- The best-choice update of lines 172-174, folded over a list of
(runtime, modified set) pairs starting from a given
(best choice, best runtime) accumulator. -/
def foldBest : List (Cost × List String) →
    Option (List String) × Option Cost →
    Option (List String) × Option Cost
  | [], s => s
  | p :: rest, s =>
    foldBest rest (if ltOpt p.1 s.2 then (some p.2, some p.1) else s)

/-- Whether a data node accesses a non-transient array of the cutout (a node
on a missing array name raises before ever being classified, so it is not
an occurrence). -/
def ntNode (cutout : Cutout) (d : DataNode) : Bool :=
  match alistGet cutout.arrays d.data with
  | some desc => !desc.transient
  | none => false

/-- All data-node occurrences of non-transient arrays, in the traversal
order of `setup_tuning_groups`. -/
def ntOccurs (cutout : Cutout) : List DataNode :=
  (cutout.states.flatMap (fun s => s.dataNodes)).filter (ntNode cutout)

/-- The first data node accessing a given non-transient array, whose
in-degree decides the array's input/output classification. -/
def firstNode (cutout : Cutout) (a : String) : Option DataNode :=
  (ntOccurs cutout).find? (fun d => d.data = a)

/-- The `inoutgroup` value of a data node: `0` for a pure input (in-degree
zero), `1` for a written array. -/
def ioClassOf (d : DataNode) : Int :=
  if d.in_degree = 0 then 0 else 1

/-- Input/output classification of an array name, determined by the first
data node that accesses it. -/
def arrClass (cutout : Cutout) (a : String) : Option Int :=
  (firstNode cutout a).map ioClassOf

/-- Example descriptor: a non-transient 4 by 8 row-major array. -/
def exA : ArrayDesc :=
  { shape := [4, 8], strides := [8, 1], total_size := 32, transient := false }

/-- Example descriptor: a non-transient 3 by 5 row-major array. -/
def exB : ArrayDesc :=
  { shape := [3, 5], strides := [5, 1], total_size := 15, transient := false }

/-- Example descriptor: a transient rank-1 array. -/
def exT : ArrayDesc :=
  { shape := [7], strides := [1], total_size := 7, transient := true }

/-- Example descriptor: a non-transient rank-1 array. -/
def exV : ArrayDesc :=
  { shape := [6], strides := [1], total_size := 6, transient := false }

/-- Example array dictionary with two independent non-transient rank-2
arrays and one transient array. -/
def exArrays : ArrayDict := [("A", exA), ("B", exB), ("tmp", exT)]

/-- Example kernel: a single non-transient rank-2 array accessed by one
input node. -/
def exKernel : Kernel :=
  { label := "map0", cutout := { arrays := [("A", exA)], states := [⟨[⟨"A", 0⟩]⟩] } }

/-- Example kernel whose `Inputs_Outputs` grouping buckets a rank-2 input
with a rank-1 input, a mixed-rank group. -/
def exMixedKernel : Kernel :=
  { label := "map1",
    cutout :=
      { arrays := [("A", exA), ("V", exV)]
        states := [⟨[⟨"A", 0⟩, ⟨"V", 0⟩]⟩] } }

/-- Example cutout with two pure inputs (one of them accessed twice) and one
written array, for the `Inputs_Outputs` grouping example. -/
def exIOCutout : Cutout :=
  { arrays := [("A", exA), ("B", exB), ("C", exA), ("tmp", exT)]
    states := [⟨[⟨"A", 0⟩, ⟨"B", 0⟩, ⟨"C", 2⟩, ⟨"tmp", 1⟩, ⟨"A", 3⟩]⟩] }

/-- Example cached report. -/
def exReport : Report := [([("A", [8, 1])], 7)]

/-- Example measurement collaborator that always succeeds with cost 7. -/
def exMf : Nat → Except Unit Cost := fun _ => .ok 7

/-- Example measurement collaborator that fails on its second invocation. -/
def exMfFail : Nat → Except Unit Cost :=
  fun n => if n = 1 then .error () else .ok 3

/-- The two yields of `space` on the example kernel's single rank-2 array,
written out as literals. -/
def exYields2 : List SpaceYield :=
  [⟨[("A", { shape := [4, 8], strides := [8, 1], total_size := 32,
             transient := false })], ["A"]⟩,
   ⟨[("A", { shape := [4, 8], strides := [1, 4], total_size := 32,
             transient := false })], ["A"]⟩]

theorem sum_map_constant {α : Type} (l : List α) (c : Nat) :
    (l.map (fun _ => c)).sum = l.length * c := by
  induction l with
  | nil => simp
  | cons a l ih => simp [ih, Nat.succ_mul, Nat.add_comm]

theorem productList_length {α : Type} (ls : List (List α)) :
    (productList ls).length = (ls.map List.length).prod := by
  induction ls with
  | nil => rfl
  | cons l ls ih =>
    simp only [productList, List.length_flatMap, List.map_map,
      Function.comp_def, List.length_map, List.map_cons, List.prod_cons]
    rw [sum_map_constant, ih]

theorem insertsOf_length {α : Type} (x : α) (l : List α) :
    (insertsOf x l).length = l.length + 1 := by
  induction l with
  | nil => rfl
  | cons y ys ih => simp [insertsOf, ih]

theorem insertsOf_mem_length {α : Type} (x : α) (q : List α) :
    ∀ r ∈ insertsOf x q, r.length = q.length + 1 := by
  induction q with
  | nil => intro r hr; simp [insertsOf] at hr; simp [hr]
  | cons y ys ih =>
    intro r hr
    simp only [insertsOf, List.mem_cons, List.mem_map] at hr
    rcases hr with h1 | ⟨s, hs, h2⟩
    · simp [h1]
    · rw [← h2]
      simp [ih s hs]

theorem permsList_mem_length {α : Type} (l : List α) :
    ∀ p ∈ permsList l, p.length = l.length := by
  induction l with
  | nil => intro p hp; simp [permsList] at hp; simp [hp]
  | cons x xs ih =>
    intro p hp
    simp only [permsList, List.mem_flatMap] at hp
    obtain ⟨q, hq, hpq⟩ := hp
    rw [insertsOf_mem_length x q p hpq, ih q hq]
    simp

theorem permsList_length {α : Type} (l : List α) :
    (permsList l).length = Nat.factorial l.length := by
  induction l with
  | nil => rfl
  | cons x xs ih =>
    simp only [permsList, List.length_flatMap, List.length_cons,
      Nat.factorial_succ, Function.comp_def]
    have hmap : (permsList xs).map (fun q => (insertsOf x q).length) =
        (permsList xs).map (fun _ => xs.length + 1) := by
      apply List.map_congr_left
      intro q hq
      rw [insertsOf_length, permsList_mem_length xs q hq]
    rw [hmap, sum_map_constant, ih, Nat.mul_comm]

theorem permsOfRange_length (d : Nat) :
    (permsOfRange d).length = Nat.factorial d := by
  simp [permsOfRange, permsList_length]

theorem spaceLoop_length (pristine : ArrayDict) (groups : List (List String)) :
    ∀ (configs : List (List (List Nat))) (cur : ArrayDict)
      (ys : List SpaceYield) (fin : ArrayDict),
      spaceLoop pristine groups configs cur = .ok (ys, fin) →
      ys.length = configs.length := by
  intro configs
  induction configs with
  | nil =>
    intro cur ys fin h
    simp only [spaceLoop, Except.ok.injEq, Prod.mk.injEq] at h
    simp [← h.1]
  | cons c cs ih =>
    intro cur ys fin h
    cases hc : applyConfig pristine groups c with
    | error e => simp [spaceLoop, hc] at h
    | ok acc =>
      cases hrest : spaceLoop pristine groups cs acc.1 with
      | error e => simp [spaceLoop, hc, hrest] at h
      | ok rest =>
        simp only [spaceLoop, hc, hrest, Except.ok.injEq, Prod.mk.injEq] at h
        have := ih acc.1 rest.1 rest.2 (by rw [hrest])
        simp [← h.1, this]

/-- C1: for every kernel and every grouping policy, the layout-space
generator `space` yields exactly the product of `rank_g!` configurations
over the resulting groups, and under the `Separate` policy (`groups =
None`) the group ranks are exactly the ranks of the non-transient arrays,
one singleton group per array. -/
theorem space_yields_prod_factorials (arrays : ArrayDict)
    (groups : Option (List (List String))) (gs : List (List String))
    (dims : List Nat) (yields : List SpaceYield)
    (hg : computeGroups arrays groups = .ok (gs, dims))
    (hs : space arrays groups = .ok yields) :
    yields.length = (dims.map Nat.factorial).prod ∧
      (groups = none →
        gs = (arrays.filter (fun kv => !kv.2.transient)).map
            (fun kv => [kv.1]) ∧
        dims = (arrays.filter (fun kv => !kv.2.transient)).map
            (fun kv => kv.2.shape.length)) := by
  constructor
  · cases hsp : spaceLoop arrays gs (productList (dims.map permsOfRange))
        arrays with
    | error e => simp [space, hg, hsp] at hs
    | ok res =>
      simp only [space, hg, hsp, Except.ok.injEq] at hs
      have hlen := spaceLoop_length arrays gs
        (productList (dims.map permsOfRange)) arrays res.1 res.2
        (by rw [hsp])
      rw [← hs, hlen, productList_length, List.map_map]
      simp [Function.comp_def, permsOfRange_length]
  · intro hnone
    subst hnone
    simp only [computeGroups, Except.ok.injEq, Prod.mk.injEq] at hg
    exact ⟨hg.1.symm, hg.2.symm⟩

/-- Witness for C1: two independent rank-2 arrays under the `Separate`
policy yield exactly `2! * 2! = 4` configurations. -/
theorem space_yields_prod_factorials_witness :
    computeGroups exArrays none = .ok ([["A"], ["B"]], [2, 2]) ∧
    space exArrays none = .ok ((space exArrays none).toOption.getD []) ∧
    ((space exArrays none).toOption.getD []).length =
      ([2, 2].map Nat.factorial).prod ∧
    ([2, 2].map Nat.factorial).prod = 4 :=
  ⟨by decide, by decide,
   (space_yields_prod_factorials exArrays none [["A"], ["B"]] [2, 2]
      ((space exArrays none).toOption.getD []) (by decide) (by decide)).1,
   by decide⟩

/-- C2: each iteration of the configuration loop of `space` first resets the
descriptor store to the pristine pre-sweep copy, so the sequence of yields
(each configuration's descriptor state and modified set) is the same
function `perConfigList` of the pristine descriptors and the configurations
alone, for every incoming mutable state `cur` — no configuration observes
mutations made while evaluating an earlier configuration. -/
theorem space_yields_independent_of_state (pristine : ArrayDict)
    (groups : List (List String)) (configs : List (List (List Nat)))
    (cur : ArrayDict) :
    (spaceLoop pristine groups configs cur).map (fun p => p.1) =
      perConfigList pristine groups configs := by
  induction configs generalizing cur with
  | nil => rfl
  | cons c cs ih =>
    cases hc : applyConfig pristine groups c with
    | error e => simp [spaceLoop, perConfigList, hc, Except.map]
    | ok acc =>
      have hc2 := ih acc.1
      cases hrest : spaceLoop pristine groups cs acc.1 with
      | error e =>
        rw [hrest] at hc2
        simp [spaceLoop, perConfigList, hc, hrest, ← hc2, Except.map]
      | ok rest =>
        rw [hrest] at hc2
        simp [spaceLoop, perConfigList, hc, hrest, ← hc2, Except.map]

/-- C3: if the cache file named after a kernel's label exists with a
readable mapping when `optimize` processes that kernel, the mapping is
entered in the report verbatim and the loop moves on with the file system
and the measurement-invocation counter unchanged: no grouping, layout
enumeration, or measurement happens for that kernel. -/
theorem optimize_cache_hit_skips (gb : TuningGroups)
    (mf : Nat → Except Unit Cost) (k : Kernel) (ks : List Kernel)
    (tr : List (String × Report)) (fs : Fs) (cnt : Nat) (r : Report)
    (h : alistGet fs (cacheFile k.label) = some (FileContent.valid r)) :
    optimizeLoop gb mf (k :: ks) tr fs cnt =
      optimizeLoop gb mf ks (alistSet tr k.label r) fs cnt := by
  simp [optimizeLoop, h, jsonLoad]

/-- Witness for C3 on a concrete kernel and cache file. -/
theorem optimize_cache_hit_skips_witness :
    alistGet [(cacheFile "map0", FileContent.valid exReport)]
        (cacheFile exKernel.label) = some (FileContent.valid exReport) ∧
    optimizeLoop TuningGroups.Separate exMf [exKernel] []
        [(cacheFile "map0", FileContent.valid exReport)] 0 =
      optimizeLoop TuningGroups.Separate exMf []
        (alistSet [] exKernel.label exReport)
        [(cacheFile "map0", FileContent.valid exReport)] 0 :=
  ⟨by decide,
   optimize_cache_hit_skips TuningGroups.Separate exMf exKernel [] []
     [(cacheFile "map0", FileContent.valid exReport)] 0 exReport (by decide)⟩

theorem groupNdimsStep_cases (arrays : ArrayDict) (nd : Option Nat)
    (m : String) (desc : ArrayDesc) (hget : alistGet arrays m = some desc) :
    groupNdimsStep arrays nd m = .error .valueError ∨
      groupNdimsStep arrays nd m = .ok (some desc.shape.length) := by
  cases nd with
  | none => right; simp [groupNdimsStep, hget]
  | some d =>
    by_cases h : desc.shape.length ≠ d
    · left; simp [groupNdimsStep, hget, h]
    · right; simp [groupNdimsStep, hget, h]

theorem groupNdimsAux_lookup_ok (arrays : ArrayDict) :
    ∀ (g : List String) (nd : Option Nat),
      (∀ m ∈ g, (alistGet arrays m).isSome) →
      groupNdimsAux arrays nd g = .error .valueError ∨
        ∃ nd2, groupNdimsAux arrays nd g = .ok nd2 := by
  intro g
  induction g with
  | nil => intro nd _; right; exact ⟨nd, rfl⟩
  | cons m ms ih =>
    intro nd hlook
    have hm := hlook m (by simp)
    cases hget : alistGet arrays m with
    | none => rw [hget] at hm; simp at hm
    | some desc =>
      rcases groupNdimsStep_cases arrays nd m desc hget with hs | hs
      · left; simp [groupNdimsAux, hs]
      · have := ih (some desc.shape.length) (fun x hx => hlook x (by simp [hx]))
        rcases this with h2 | ⟨nd2, h2⟩
        · left; simp [groupNdimsAux, hs, h2]
        · right; exact ⟨nd2, by simp [groupNdimsAux, hs, h2]⟩

theorem groupNdimsAux_some_ok (arrays : ArrayDict) :
    ∀ (g : List String) (d : Nat) (nd2 : Option Nat),
      groupNdimsAux arrays (some d) g = .ok nd2 → nd2 = some d := by
  intro g
  induction g with
  | nil => intro d nd2 h; simpa [groupNdimsAux] using h.symm
  | cons m ms ih =>
    intro d nd2 h
    cases hget : alistGet arrays m with
    | none => simp [groupNdimsAux, groupNdimsStep, hget] at h
    | some desc =>
      by_cases hd : desc.shape.length ≠ d
      · simp [groupNdimsAux, groupNdimsStep, hget, hd] at h
      · push_neg at hd
        have hstep : groupNdimsStep arrays (some d) m =
            .ok (some desc.shape.length) := by
          simp [groupNdimsStep, hget, hd]
        rw [hd] at hstep
        simp only [groupNdimsAux, hstep] at h
        exact ih d nd2 h

theorem groupNdimsAux_ok_ranks (arrays : ArrayDict) :
    ∀ (g : List String) (nd nd2 : Option Nat),
      groupNdimsAux arrays nd g = .ok nd2 →
      ∀ m ∈ g, ∃ desc, alistGet arrays m = some desc ∧
        some desc.shape.length = nd2 := by
  intro g
  induction g with
  | nil => intro nd nd2 _ m hm; simp at hm
  | cons m0 ms ih =>
    intro nd nd2 h m hm
    cases hget : alistGet arrays m0 with
    | none => simp [groupNdimsAux, groupNdimsStep, hget] at h
    | some desc =>
      rcases groupNdimsStep_cases arrays nd m0 desc hget with hs | hs
      · simp [groupNdimsAux, hs] at h
      · simp only [groupNdimsAux, hs] at h
        have hnd2 := groupNdimsAux_some_ok arrays ms desc.shape.length nd2 h
        rcases List.mem_cons.mp hm with h1 | h1
        · subst h1; exact ⟨desc, hget, hnd2.symm⟩
        · exact ih (some desc.shape.length) nd2 h m h1

theorem groupNdims_mixed_error (arrays : ArrayDict) (g : List String)
    (hlook : ∀ m ∈ g, (alistGet arrays m).isSome)
    (a b : String) (ha : a ∈ g) (hb : b ∈ g) (da db : ArrayDesc)
    (hda : alistGet arrays a = some da) (hdb : alistGet arrays b = some db)
    (hne : da.shape.length ≠ db.shape.length) :
    groupNdims arrays g = .error .valueError := by
  rcases groupNdimsAux_lookup_ok arrays g none hlook with h | ⟨nd2, h⟩
  · simp [groupNdims, h]
  · exfalso
    obtain ⟨da2, hda2, hra⟩ := groupNdimsAux_ok_ranks arrays g none nd2 h a ha
    obtain ⟨db2, hdb2, hrb⟩ := groupNdimsAux_ok_ranks arrays g none nd2 h b hb
    rw [hda] at hda2
    rw [hdb] at hdb2
    cases hda2
    cases hdb2
    rw [← hrb] at hra
    exact hne (Option.some_injective Nat hra)

theorem groupDimsList_mixed (arrays : ArrayDict) :
    ∀ (gs : List (List String)),
      (∀ g ∈ gs, ∀ m ∈ g, (alistGet arrays m).isSome) →
      (∃ g ∈ gs, ∃ a ∈ g, ∃ b ∈ g, ∃ da db,
        alistGet arrays a = some da ∧ alistGet arrays b = some db ∧
        da.shape.length ≠ db.shape.length) →
      groupDimsList arrays gs = .error .valueError := by
  intro gs
  induction gs with
  | nil => intro _ hmix; simp at hmix
  | cons g gs ih =>
    intro hlook hmix
    rcases hmix with ⟨g2, hg2, a, ha, b, hb, da, db, hda, hdb, hne⟩
    rcases List.mem_cons.mp hg2 with h1 | h1
    · subst h1
      have := groupNdims_mixed_error arrays g2 (hlook g2 (by simp)) a b ha hb
        da db hda hdb hne
      simp [groupDimsList, this]
    · rcases groupNdimsAux_lookup_ok arrays g none (hlook g (by simp)) with
        h2 | ⟨nd2, h2⟩
      · simp [groupDimsList, groupNdims, h2]
      · have hrec := ih (fun x hx => hlook x (by simp [hx]))
          ⟨g2, h1, a, ha, b, hb, da, db, hda, hdb, hne⟩
        simp [groupDimsList, groupNdims, h2, hrec]

/-- C4: when a provided tuning group mixes arrays of different ranks, the
kernel's sweep aborts with the `ValueError` of the group verification loop
before any configuration is yielded: `optimize` propagates the error with
zero additional measurement invocations, no cache entry recorded for the
kernel, and the file system (previously cached kernels included)
untouched. -/
theorem mixed_rank_group_aborts (gb : TuningGroups)
    (mf : Nat → Except Unit Cost) (k : Kernel) (ks : List Kernel)
    (tr : List (String × Report)) (fs : Fs) (cnt : Nat)
    (gs : List (List String))
    (hmiss : alistGet fs (cacheFile k.label) = none)
    (hsetup : setup_tuning_groups k.cutout gb = .ok (some gs))
    (hlook : ∀ g ∈ gs, ∀ m ∈ g, (alistGet k.cutout.arrays m).isSome)
    (hmixed : ∃ g ∈ gs, ∃ a ∈ g, ∃ b ∈ g, ∃ da db,
      alistGet k.cutout.arrays a = some da ∧
      alistGet k.cutout.arrays b = some db ∧
      da.shape.length ≠ db.shape.length) :
    optimizeLoop gb mf (k :: ks) tr fs cnt = (.error .valueError, fs, cnt) ∧
    space k.cutout.arrays (some gs) = .error .valueError := by
  have hd := groupDimsList_mixed k.cutout.arrays gs hlook hmixed
  have hspace : space k.cutout.arrays (some gs) = .error .valueError := by
    simp [space, computeGroups, hd]
  exact ⟨by simp [optimizeLoop, hmiss, hsetup, hspace], hspace⟩

/-- Witness for C4: a kernel whose `Inputs_Outputs` grouping buckets a
rank-2 input together with a rank-1 input. -/
theorem mixed_rank_group_aborts_witness :
    alistGet ([] : Fs) (cacheFile exMixedKernel.label) = none ∧
    setup_tuning_groups exMixedKernel.cutout TuningGroups.Inputs_Outputs =
      .ok (some [["A", "V"]]) ∧
    optimizeLoop TuningGroups.Inputs_Outputs exMf [exMixedKernel] [] [] 0 =
      (.error .valueError, [], 0) :=
  ⟨by decide, by decide,
   (mixed_rank_group_aborts TuningGroups.Inputs_Outputs exMf exMixedKernel
      [] [] [] 0 [["A", "V"]] (by decide) (by decide) (by decide)
      ⟨["A", "V"], by decide, "A", by decide, "V", by decide, exA, exV,
        by decide, by decide, by decide⟩).1⟩

/-- C5: the cache file of a kernel is written only after its whole
configuration space has been measured; if the execution collaborator fails
partway through the sweep, `optimize` aborts with the file system exactly
as it was when the kernel was started — no cache entry for the in-progress
kernel and all previously written cache files unchanged. -/
theorem measurement_failure_writes_no_cache (gb : TuningGroups)
    (mf : Nat → Except Unit Cost) (k : Kernel) (ks : List Kernel)
    (tr : List (String × Report)) (fs : Fs) (cnt cnt2 : Nat)
    (gs : Option (List (List String))) (yields : List SpaceYield)
    (hmiss : alistGet fs (cacheFile k.label) = none)
    (hsetup : setup_tuning_groups k.cutout gb = .ok gs)
    (hspace : space k.cutout.arrays gs = .ok yields)
    (hfail : sweep mf yields [] none none cnt = (.error (), cnt2)) :
    optimizeLoop gb mf (k :: ks) tr fs cnt =
      (.error .executionError, fs, cnt2) := by
  simp [optimizeLoop, hmiss, hsetup, hspace, hfail]

/-- Witness for C5: the collaborator fails on the second of the two
configurations of a rank-2 array; nothing is written. -/
theorem measurement_failure_writes_no_cache_witness :
    sweep exMfFail ((space exKernel.cutout.arrays none).toOption.getD [])
        [] none none 0 = (.error (), 2) ∧
    optimizeLoop TuningGroups.Separate exMfFail [exKernel] [] [] 0 =
      (.error .executionError, [], 2) :=
  ⟨by decide,
   measurement_failure_writes_no_cache TuningGroups.Separate exMfFail
     exKernel [] [] [] 0 2 none
     ((space exKernel.cutout.arrays none).toOption.getD [])
     (by decide) (by decide) (by decide) (by decide)⟩

/-- C6 counterexample: with a malformed cache file present for a kernel
whose layout space has two configurations, `optimize` does not treat the
file as a cache miss and re-measure (which would return normally after two
measurement invocations); it propagates the decode error immediately, with
zero measurement invocations. -/
theorem malformed_cache_not_remeasured :
    optimizeLoop TuningGroups.Separate exMf [exKernel] []
        [(cacheFile "map0", FileContent.malformed)] 0 =
      (.error .jsonDecode, [(cacheFile "map0", FileContent.malformed)], 0) ∧
    (space exKernel.cutout.arrays none).map List.length = .ok 2 :=
  ⟨by decide, by decide⟩

/-- C6 amended: if the on-disk cache file for a kernel label exists but is
malformed, `optimize` raises the decode error and aborts; the kernel is not
re-measured and the file system is left unchanged. -/
theorem malformed_cache_aborts (gb : TuningGroups)
    (mf : Nat → Except Unit Cost) (k : Kernel) (ks : List Kernel)
    (tr : List (String × Report)) (fs : Fs) (cnt : Nat)
    (h : alistGet fs (cacheFile k.label) = some FileContent.malformed) :
    optimizeLoop gb mf (k :: ks) tr fs cnt = (.error .jsonDecode, fs, cnt) := by
  simp [optimizeLoop, h, jsonLoad]

/-- Witness for the amended C6. -/
theorem malformed_cache_aborts_witness :
    alistGet [(cacheFile "map0", FileContent.malformed)]
        (cacheFile exKernel.label) = some FileContent.malformed ∧
    optimizeLoop TuningGroups.Separate exMf [exKernel] []
        [(cacheFile "map0", FileContent.malformed)] 0 =
      (.error .jsonDecode, [(cacheFile "map0", FileContent.malformed)], 0) :=
  ⟨by decide,
   malformed_cache_aborts TuningGroups.Separate exMf exKernel [] []
     [(cacheFile "map0", FileContent.malformed)] 0 (by decide)⟩

theorem sweep_all_ok (mf : Nat → Except Unit Cost) :
    ∀ (ys : List SpaceYield) (costs : List Cost) (res : Report)
      (bc : Option (List String)) (br : Option Cost) (cnt : Nat),
      costs.length = ys.length →
      (∀ i, i < ys.length → mf (cnt + i) = .ok (costs.getD i 0)) →
      ∃ res2, sweep mf ys res bc br cnt =
        (.ok (res2,
          (foldBest (costs.zip (ys.map SpaceYield.modified)) (bc, br)).1,
          (foldBest (costs.zip (ys.map SpaceYield.modified)) (bc, br)).2),
         cnt + ys.length) := by
  intro ys
  induction ys with
  | nil =>
    intro costs res bc br cnt hlen hmf
    exact ⟨res, by simp [sweep, foldBest]⟩
  | cons y ys ih =>
    intro costs res bc br cnt hlen hmf
    cases costs with
    | nil => simp at hlen
    | cons c cs =>
      have hc : mf cnt = .ok c := by
        have := hmf 0 (by simp)
        simpa using this
      have hlen2 : cs.length = ys.length := by simpa using hlen
      have hmf2 : ∀ i, i < ys.length → mf (cnt + 1 + i) = .ok (cs.getD i 0) := by
        intro i hi
        have := hmf (i + 1) (by simp; omega)
        rw [show cnt + (i + 1) = cnt + 1 + i by omega] at this
        simpa using this
      have hcnt : cnt + (y :: ys).length = cnt + 1 + ys.length := by
        simp [List.length_cons]
        omega
      by_cases hlt : ltOpt c br = true
      · obtain ⟨res2, h2⟩ := ih cs (alistSet res (layoutSig y.arrays) c)
          (some y.modified) (some c) (cnt + 1) hlen2 hmf2
        refine ⟨res2, ?_⟩
        have hfold :
            foldBest ((c :: cs).zip ((y :: ys).map SpaceYield.modified))
              (bc, br) =
            foldBest (cs.zip (ys.map SpaceYield.modified))
              (some y.modified, some c) := by
          simp [List.zip_cons_cons, foldBest, hlt, List.zip]
        rw [hcnt, hfold]
        simp only [sweep, hc, hlt, if_true]
        exact h2
      · rw [Bool.not_eq_true] at hlt
        obtain ⟨res2, h2⟩ := ih cs (alistSet res (layoutSig y.arrays) c)
          bc br (cnt + 1) hlen2 hmf2
        refine ⟨res2, ?_⟩
        have hfold :
            foldBest ((c :: cs).zip ((y :: ys).map SpaceYield.modified))
              (bc, br) =
            foldBest (cs.zip (ys.map SpaceYield.modified)) (bc, br) := by
          simp [List.zip_cons_cons, foldBest, hlt, List.zip]
        rw [hcnt, hfold]
        simp only [sweep, hc, hlt, Bool.false_eq_true, if_false]
        exact h2

theorem foldBest_invariant :
    ∀ (l : List (Cost × List String)) (bc0 : Option (List String))
      (c0 : Cost),
      (foldBest l (bc0, some c0) = (bc0, some c0) ∧
        ∀ i, i < l.length → c0 ≤ (l.getD i (0, [])).1) ∨
      (∃ j, j < l.length ∧
        foldBest l (bc0, some c0) =
          (some (l.getD j (0, [])).2, some (l.getD j (0, [])).1) ∧
        (l.getD j (0, [])).1 < c0 ∧
        (∀ i, i < l.length → (l.getD j (0, [])).1 ≤ (l.getD i (0, [])).1) ∧
        (∀ i, i < j → (l.getD j (0, [])).1 < (l.getD i (0, [])).1)) := by
  intro l
  induction l with
  | nil =>
    intro bc0 c0
    left
    exact ⟨rfl, by intro i hi; simp at hi⟩
  | cons p rest ih =>
    intro bc0 c0
    by_cases hlt : ltOpt p.1 (some c0) = true
    · have hplt : p.1 < c0 := by simpa [ltOpt] using hlt
      have hstep : foldBest (p :: rest) (bc0, some c0) =
          foldBest rest (some p.2, some p.1) := by
        simp [foldBest, hlt]
      rcases ih (some p.2) p.1 with ⟨heq, hle⟩ | ⟨j, hj, heq, hlt2, hle, hstr⟩
      · right
        refine ⟨0, by simp, ?_, ?_, ?_, ?_⟩
        · rw [hstep, heq]; rfl
        · simpa using hplt
        · intro i hi
          cases i with
          | zero => simp
          | succ i2 =>
            simp only [List.getD_cons_succ, List.getD_cons_zero]
            exact hle i2 (by simpa using hi)
        · intro i hi; omega
      · right
        refine ⟨j + 1, by simpa using hj, ?_, ?_, ?_, ?_⟩
        · rw [hstep, heq]; simp
        · simp only [List.getD_cons_succ]
          exact lt_trans hlt2 hplt
        · intro i hi
          cases i with
          | zero =>
            simp only [List.getD_cons_succ, List.getD_cons_zero]
            exact le_of_lt (lt_of_lt_of_le hlt2 (le_refl p.1))
          | succ i2 =>
            simp only [List.getD_cons_succ]
            exact hle i2 (by simpa using hi)
        · intro i hi
          cases i with
          | zero =>
            simp only [List.getD_cons_succ, List.getD_cons_zero]
            exact hlt2
          | succ i2 =>
            simp only [List.getD_cons_succ]
            exact hstr i2 (by omega)
    · rw [Bool.not_eq_true] at hlt
      have hge : c0 ≤ p.1 := by simpa [ltOpt] using hlt
      have hstep : foldBest (p :: rest) (bc0, some c0) =
          foldBest rest (bc0, some c0) := by
        simp [foldBest, hlt]
      rcases ih bc0 c0 with ⟨heq, hle⟩ | ⟨j, hj, heq, hlt2, hle, hstr⟩
      · left
        constructor
        · rw [hstep, heq]
        · intro i hi
          cases i with
          | zero => simpa using hge
          | succ i2 =>
            simp only [List.getD_cons_succ]
            exact hle i2 (by simpa using hi)
      · right
        refine ⟨j + 1, by simpa using hj, ?_, ?_, ?_, ?_⟩
        · rw [hstep, heq]; simp
        · simp only [List.getD_cons_succ]
          exact hlt2
        · intro i hi
          cases i with
          | zero =>
            simp only [List.getD_cons_succ, List.getD_cons_zero]
            exact le_of_lt (lt_of_lt_of_le hlt2 hge)
          | succ i2 =>
            simp only [List.getD_cons_succ]
            exact hle i2 (by simpa using hi)
        · intro i hi
          cases i with
          | zero =>
            simp only [List.getD_cons_succ, List.getD_cons_zero]
            exact lt_of_lt_of_le hlt2 hge
          | succ i2 =>
            simp only [List.getD_cons_succ]
            exact hstr i2 (by omega)

theorem foldBest_first_min (p : Cost × List String)
    (l : List (Cost × List String)) :
    ∃ j, j < (p :: l).length ∧
      foldBest (p :: l) (none, none) =
        (some ((p :: l).getD j (0, [])).2,
         some ((p :: l).getD j (0, [])).1) ∧
      (∀ i, i < (p :: l).length →
        ((p :: l).getD j (0, [])).1 ≤ ((p :: l).getD i (0, [])).1) ∧
      (∀ i, i < j → ((p :: l).getD j (0, [])).1 < ((p :: l).getD i (0, [])).1) := by
  have hstep : foldBest (p :: l) (none, none) =
      foldBest l (some p.2, some p.1) := by
    simp [foldBest, ltOpt]
  rcases foldBest_invariant l (some p.2) p.1 with
    ⟨heq, hle⟩ | ⟨j, hj, heq, hlt2, hle, hstr⟩
  · refine ⟨0, by simp, ?_, ?_, ?_⟩
    · rw [hstep, heq]; rfl
    · intro i hi
      cases i with
      | zero => simp
      | succ i2 =>
        simp only [List.getD_cons_succ, List.getD_cons_zero]
        exact hle i2 (by simpa using hi)
    · intro i hi; omega
  · refine ⟨j + 1, by simpa using hj, ?_, ?_, ?_⟩
    · rw [hstep, heq]; simp
    · intro i hi
      cases i with
      | zero =>
        simp only [List.getD_cons_succ, List.getD_cons_zero]
        exact le_of_lt hlt2
      | succ i2 =>
        simp only [List.getD_cons_succ]
        exact hle i2 (by simpa using hi)
    · intro i hi
      cases i with
      | zero =>
        simp only [List.getD_cons_succ, List.getD_cons_zero]
        exact hlt2
      | succ i2 =>
        simp only [List.getD_cons_succ]
        exact hstr i2 (by omega)

theorem zip_getD_pair :
    ∀ (as : List Cost) (bs : List (List String)) (j : Nat),
      j < as.length → j < bs.length →
      (as.zip bs).getD j (0, []) = (as.getD j 0, bs.getD j []) := by
  intro as
  induction as with
  | nil => intro bs j h _; simp at h
  | cons a as ih =>
    intro bs j h1 h2
    cases bs with
    | nil => simp at h2
    | cons b bs =>
      cases j with
      | zero => simp
      | succ j2 =>
        simp only [List.zip_cons_cons, List.getD_cons_succ]
        exact ih bs j2 (by simpa using h1) (by simpa using h2)

theorem map_modified_getD :
    ∀ (ys : List SpaceYield) (j : Nat), j < ys.length →
      (ys.map SpaceYield.modified).getD j [] =
        (ys.getD j default).modified := by
  intro ys
  induction ys with
  | nil => intro j h; simp at h
  | cons y ys ih =>
    intro j h
    cases j with
    | zero => simp
    | succ j2 =>
      simp only [List.map_cons, List.getD_cons_succ]
      exact ih j2 (by simpa using h)

/-- C7: on a completed sweep, the tracked best configuration is the
first-enumerated configuration attaining the minimum measured cost: there
is an index `j` such that `best_choice` and `best_runtime` are the modified
set and cost of yield `j`, cost `j` is a minimum of all measured costs, and
every earlier-enumerated configuration has strictly larger cost (the strict
less-than update resolves ties in favor of the earlier configuration). -/
theorem optimize_best_is_first_min (mf : Nat → Except Unit Cost)
    (ys : List SpaceYield) (costs : List Cost) (cnt cnt2 : Nat)
    (res : Report) (bc : Option (List String)) (br : Option Cost)
    (hlen : costs.length = ys.length) (hne : ys ≠ [])
    (hmf : ∀ i, i < ys.length → mf (cnt + i) = .ok (costs.getD i 0))
    (hrun : sweep mf ys [] none none cnt = (.ok (res, bc, br), cnt2)) :
    ∃ j, j < ys.length ∧
      bc = some ((ys.getD j default).modified) ∧
      br = some (costs.getD j 0) ∧
      (∀ i, i < ys.length → costs.getD j 0 ≤ costs.getD i 0) ∧
      (∀ i, i < j → costs.getD j 0 < costs.getD i 0) := by
  obtain ⟨res2, hsw⟩ := sweep_all_ok mf ys costs [] none none cnt hlen hmf
  rw [hrun] at hsw
  simp only [Prod.mk.injEq, Except.ok.injEq] at hsw
  obtain ⟨⟨hres, hbc, hbr⟩, hcnt⟩ := hsw
  have hlenzip : (costs.zip (ys.map SpaceYield.modified)).length =
      ys.length := by
    simp [List.length_zip, hlen]
  cases hl : costs.zip (ys.map SpaceYield.modified) with
  | nil =>
    rw [hl] at hlenzip
    cases ys with
    | nil => exact absurd rfl hne
    | cons a b => simp at hlenzip
  | cons p l2 =>
    obtain ⟨j, hj, heq, hle, hstr⟩ := foldBest_first_min p l2
    rw [← hl] at hj heq hle hstr
    rw [hlenzip] at hj
    have hjc : j < costs.length := by omega
    have hjm : j < (ys.map SpaceYield.modified).length := by
      simpa [List.length_map] using hj
    have hzipj := zip_getD_pair costs (ys.map SpaceYield.modified) j hjc hjm
    have hmodj := map_modified_getD ys j hj
    refine ⟨j, hj, ?_, ?_, ?_, ?_⟩
    · rw [hbc, heq, hzipj, hmodj]
    · rw [hbr, heq, hzipj]
    · intro i hi
      have hic : i < costs.length := by omega
      have him : i < (ys.map SpaceYield.modified).length := by
        simpa [List.length_map] using hi
      have hzipi := zip_getD_pair costs (ys.map SpaceYield.modified) i hic him
      have h2 := hle i (by rw [hlenzip]; exact hi)
      rw [hzipj, hzipi] at h2
      simpa using h2
    · intro i hi
      have hily : i < ys.length := by omega
      have hic : i < costs.length := by omega
      have him : i < (ys.map SpaceYield.modified).length := by
        simpa [List.length_map] using hily
      have hzipi := zip_getD_pair costs (ys.map SpaceYield.modified) i hic him
      have h2 := hstr i hi
      rw [hzipj, hzipi] at h2
      simpa using h2

/-- Witness for C7: two configurations measured with equal cost 7; the
first-enumerated configuration (index 0) is the tracked best choice. -/
theorem optimize_best_is_first_min_witness :
    sweep exMf exYields2 [] none none 0 =
      (.ok ([([("A", [8, 1])], 7), ([("A", [1, 4])], 7)], some ["A"],
        some 7), 2) ∧
    (∃ j, j < exYields2.length ∧
      some ["A"] = some ((exYields2.getD j default).modified) ∧
      some (7 : Cost) = some (([7, 7] : List Cost).getD j 0) ∧
      (∀ i, i < exYields2.length →
        ([7, 7] : List Cost).getD j 0 ≤ ([7, 7] : List Cost).getD i 0) ∧
      (∀ i, i < j →
        ([7, 7] : List Cost).getD j 0 < ([7, 7] : List Cost).getD i 0)) :=
  ⟨by decide,
   optimize_best_is_first_min exMf exYields2 [7, 7] 0 2
     [([("A", [8, 1])], 7), ([("A", [1, 4])], 7)] (some ["A"]) (some 7)
     (by decide) (by decide)
     (by
       intro i hi
       have h2 : i < 2 := by simpa [exYields2] using hi
       interval_cases i <;> rfl)
     (by decide)⟩

theorem alistGet_cons {α β : Type} [DecidableEq α] (p : α × β)
    (l : List (α × β)) (k : α) :
    alistGet (p :: l) k = if p.1 = k then some p.2 else alistGet l k := by
  by_cases hp : p.1 = k
  · simp [alistGet, List.find?_cons_of_pos, hp]
  · simp [alistGet, List.find?_cons_of_neg, hp]

theorem alistGet_not_mem {α β : Type} [DecidableEq α] (l : List (α × β))
    (k : α) (h : k ∉ l.map Prod.fst) : alistGet l k = none := by
  induction l with
  | nil => rfl
  | cons p rest ih =>
    simp only [List.map_cons, List.mem_cons] at h
    push_neg at h
    rw [alistGet_cons, if_neg (fun he => h.1 he.symm), ih h.2]

theorem any_of_alistGet_some {α β : Type} [DecidableEq α]
    (l : List (α × β)) (k : α) (v : β) (h : alistGet l k = some v) :
    l.any (fun kv => kv.1 = k) = true := by
  induction l with
  | nil => simp [alistGet] at h
  | cons p rest ih =>
    rw [alistGet_cons] at h
    by_cases hp : p.1 = k
    · simp [hp]
    · rw [if_neg hp] at h
      simp [hp, ih h]

theorem map_update_not_mem {β : Type} (rest : List (String × β)) (k : String)
    (v : β) (h : k ∉ rest.map Prod.fst) :
    rest.map (fun kv => if kv.1 = k then (kv.1, v) else kv) = rest := by
  induction rest with
  | nil => rfl
  | cons p rest2 ih =>
    simp only [List.map_cons, List.mem_cons] at h
    push_neg at h
    have hp : ¬(p.1 = k) := fun he => h.1 he.symm
    simp only [List.map_cons, if_neg hp]
    rw [ih h.2]

theorem keys_of_skel (l1 l2 : ArrayDict)
    (h : l1.map (fun kv => (kv.1, kv.2.transient)) =
      l2.map (fun kv => (kv.1, kv.2.transient))) :
    l1.map Prod.fst = l2.map Prod.fst := by
  have h2 := congrArg (List.map Prod.fst) h
  simpa [List.map_map, Function.comp_def] using h2

theorem skel_alistSet (l : ArrayDict) (k : String) (v : ArrayDesc) :
    ∀ (desc : ArrayDesc), alistGet l k = some desc →
      v.transient = desc.transient → (l.map Prod.fst).Nodup →
      (alistSet l k v).map (fun kv => (kv.1, kv.2.transient)) =
        l.map (fun kv => (kv.1, kv.2.transient)) := by
  induction l with
  | nil => intro desc hget _ _; simp [alistGet] at hget
  | cons p rest ih =>
    intro desc hget htr hnd
    have hanyc := any_of_alistGet_some (p :: rest) k desc hget
    rw [alistGet_cons] at hget
    simp only [List.map_cons, List.nodup_cons] at hnd
    by_cases hp : p.1 = k
    · rw [if_pos hp] at hget
      have hdp : desc = p.2 := by injection hget with h2; exact h2.symm
      have hrest : k ∉ rest.map Prod.fst := by rw [← hp]; exact hnd.1
      simp only [alistSet, hanyc, if_true, List.map_cons, if_pos hp]
      rw [map_update_not_mem rest k v hrest]
      simp [htr, hdp]
    · rw [if_neg hp] at hget
      have hanyr := any_of_alistGet_some rest k desc hget
      have ihr := ih desc hget htr hnd.2
      simp only [alistSet, hanyr, if_true] at ihr
      simp only [alistSet, hanyc, if_true, List.map_cons, if_neg hp]
      rw [ihr]

theorem applyMembers_skel (gc : List Nat) :
    ∀ (ms : List String) (st : ArrayDict) (mods : List String)
      (st2 : ArrayDict) (mods2 : List String),
      (st.map Prod.fst).Nodup →
      applyMembers gc ms (st, mods) = .ok (st2, mods2) →
      st2.map (fun kv => (kv.1, kv.2.transient)) =
        st.map (fun kv => (kv.1, kv.2.transient)) := by
  intro ms
  induction ms with
  | nil =>
    intro st mods st2 mods2 _ h
    simp only [applyMembers, Except.ok.injEq, Prod.mk.injEq] at h
    rw [← h.1]
  | cons m ms2 ih =>
    intro st mods st2 mods2 hnd h
    cases hget : alistGet st m with
    | none => simp [applyMembers, hget] at h
    | some desc =>
      simp only [applyMembers, hget] at h
      set v : ArrayDesc :=
        { desc with strides := (strides_from_layout desc.shape gc).1,
                    total_size := (strides_from_layout desc.shape gc).2 }
        with hv
      have hskel1 := skel_alistSet st m v desc hget rfl hnd
      have hkeys : (alistSet st m v).map Prod.fst = st.map Prod.fst :=
        keys_of_skel _ _ hskel1
      have hnd2 : ((alistSet st m v).map Prod.fst).Nodup := by
        rw [hkeys]; exact hnd
      have ih2 := ih (alistSet st m v)
        (if m ∈ mods then mods else mods ++ [m]) st2 mods2 hnd2 h
      rw [ih2, hskel1]

theorem applyConfigAux_skel :
    ∀ (pairs : List (List String × List Nat)) (st : ArrayDict)
      (mods : List String) (st2 : ArrayDict) (mods2 : List String),
      (st.map Prod.fst).Nodup →
      applyConfigAux pairs (st, mods) = .ok (st2, mods2) →
      st2.map (fun kv => (kv.1, kv.2.transient)) =
        st.map (fun kv => (kv.1, kv.2.transient)) := by
  intro pairs
  induction pairs with
  | nil =>
    intro st mods st2 mods2 _ h
    simp only [applyConfigAux, Except.ok.injEq, Prod.mk.injEq] at h
    rw [← h.1]
  | cons p rest ih =>
    intro st mods st2 mods2 hnd h
    cases hm : applyMembers p.2 p.1 (st, mods) with
    | error e => simp [applyConfigAux, hm] at h
    | ok acc =>
      simp only [applyConfigAux, hm] at h
      have hskel1 := applyMembers_skel p.2 p.1 st mods acc.1 acc.2 hnd
        (by rw [hm])
      have hnd2 : (acc.1.map Prod.fst).Nodup := by
        rw [keys_of_skel _ _ hskel1]; exact hnd
      have ih2 := ih acc.1 acc.2 st2 mods2 hnd2 (by rw [← h])
      rw [ih2, hskel1]

theorem applyConfig_skel (pristine : ArrayDict) (groups : List (List String))
    (c : List (List Nat)) (st2 : ArrayDict) (mods : List String)
    (hnd : (pristine.map Prod.fst).Nodup)
    (h : applyConfig pristine groups c = .ok (st2, mods)) :
    st2.map (fun kv => (kv.1, kv.2.transient)) =
      pristine.map (fun kv => (kv.1, kv.2.transient)) :=
  applyConfigAux_skel (groups.zip c) pristine [] st2 mods hnd h

theorem layoutSig_iff :
    ∀ (st1 st2 : ArrayDict),
      st1.map (fun kv => (kv.1, kv.2.transient)) =
        st2.map (fun kv => (kv.1, kv.2.transient)) →
      (st1.map Prod.fst).Nodup →
      (layoutSig st1 = layoutSig st2 ↔
        ∀ a d1 d2, alistGet st1 a = some d1 → alistGet st2 a = some d2 →
          d1.transient = false → d1.strides = d2.strides) := by
  intro st1
  induction st1 with
  | nil =>
    intro st2 hskel _
    have hst2 : st2 = [] := by
      cases st2 with
      | nil => rfl
      | cons q t2 => simp at hskel
    subst hst2
    simp [layoutSig, alistGet]
  | cons p t1 ih =>
    intro st2 hskel hnd
    cases st2 with
    | nil => simp at hskel
    | cons q t2 =>
      simp only [List.map_cons, List.cons.injEq, Prod.mk.injEq] at hskel
      obtain ⟨⟨hkey, htrans⟩, hskelt⟩ := hskel
      simp only [List.map_cons, List.nodup_cons] at hnd
      have hknot1 : p.1 ∉ t1.map Prod.fst := hnd.1
      have iht := ih t2 hskelt hnd.2
      by_cases htr : p.2.transient = true
      · have e1 : layoutSig (p :: t1) = layoutSig t1 := by
          simp [layoutSig, htr]
        have e2 : layoutSig (q :: t2) = layoutSig t2 := by
          simp [layoutSig, ← htrans, htr]
        rw [e1, e2, iht]
        constructor
        · intro hta a d1 d2 hg1 hg2 hd1
          rw [alistGet_cons] at hg1 hg2
          by_cases ha : p.1 = a
          · rw [if_pos ha] at hg1
            injection hg1 with h2
            exfalso
            rw [← h2] at hd1
            simp [hd1] at htr
          · rw [if_neg ha] at hg1
            have ha2 : ¬(q.1 = a) := by rw [← hkey]; exact ha
            rw [if_neg ha2] at hg2
            exact hta a d1 d2 hg1 hg2 hd1
        · intro hfull a d1 d2 hg1 hg2 hd1
          by_cases ha : p.1 = a
          · exfalso
            have hnone : alistGet t1 a = none :=
              alistGet_not_mem t1 a (by rw [← ha]; exact hknot1)
            rw [hnone] at hg1
            cases hg1
          · have hga1 : alistGet (p :: t1) a = some d1 := by
              rw [alistGet_cons, if_neg ha]; exact hg1
            have ha2 : ¬(q.1 = a) := by rw [← hkey]; exact ha
            have hga2 : alistGet (q :: t2) a = some d2 := by
              rw [alistGet_cons, if_neg ha2]; exact hg2
            exact hfull a d1 d2 hga1 hga2 hd1
      · rw [Bool.not_eq_true] at htr
        have htr2 : q.2.transient = false := by rw [← htrans]; exact htr
        have e1 : layoutSig (p :: t1) =
            (p.1, p.2.strides) :: layoutSig t1 := by
          simp [layoutSig, htr]
        have e2 : layoutSig (q :: t2) =
            (q.1, q.2.strides) :: layoutSig t2 := by
          simp [layoutSig, htr2]
        rw [e1, e2]
        constructor
        · intro hh a d1 d2 hg1 hg2 hd1
          simp only [List.cons.injEq, Prod.mk.injEq] at hh
          obtain ⟨⟨hk2, hstr⟩, htail⟩ := hh
          rw [alistGet_cons] at hg1 hg2
          by_cases ha : p.1 = a
          · rw [if_pos ha] at hg1
            have ha2 : q.1 = a := by rw [← hkey]; exact ha
            rw [if_pos ha2] at hg2
            injection hg1 with i1
            injection hg2 with i2
            rw [← i1, ← i2]
            exact hstr
          · rw [if_neg ha] at hg1
            have ha2 : ¬(q.1 = a) := by rw [← hkey]; exact ha
            rw [if_neg ha2] at hg2
            exact (iht.mp htail) a d1 d2 hg1 hg2 hd1
        · intro hfull
          have hhead : p.2.strides = q.2.strides := by
            apply hfull p.1 p.2 q.2
            · rw [alistGet_cons, if_pos rfl]
            · rw [alistGet_cons, if_pos hkey.symm]
            · exact htr
          rw [hkey, hhead]
          congr 1
          apply iht.mpr
          intro a d1 d2 hg1 hg2 hd1
          by_cases ha : p.1 = a
          · exfalso
            have hnone : alistGet t1 a = none :=
              alistGet_not_mem t1 a (by rw [← ha]; exact hknot1)
            rw [hnone] at hg1
            cases hg1
          · apply hfull a d1 d2
            · rw [alistGet_cons, if_neg ha]; exact hg1
            · have ha2 : ¬(q.1 = a) := by rw [← hkey]; exact ha
              rw [alistGet_cons, if_neg ha2]; exact hg2
            · exact hd1

/-- C9: for two configurations of the same sweep (both applied to the same
pristine descriptor dictionary, whose keys are distinct as in a Python
dict), the canonical layout signatures coincide exactly when the resulting
strides agree on every non-transient array: equal strides everywhere give
the identical signature, and a difference in some non-transient array's
strides gives different signatures. -/
theorem layout_signature_deterministic (pristine : ArrayDict)
    (groups : List (List String)) (c1 c2 : List (List Nat))
    (st1 st2 : ArrayDict) (m1 m2 : List String)
    (hnd : (pristine.map Prod.fst).Nodup)
    (h1 : applyConfig pristine groups c1 = .ok (st1, m1))
    (h2 : applyConfig pristine groups c2 = .ok (st2, m2)) :
    layoutSig st1 = layoutSig st2 ↔
      ∀ a d1 d2, alistGet st1 a = some d1 → alistGet st2 a = some d2 →
        d1.transient = false → d1.strides = d2.strides := by
  have hs1 := applyConfig_skel pristine groups c1 st1 m1 hnd h1
  have hs2 := applyConfig_skel pristine groups c2 st2 m2 hnd h2
  have hnd1 : (st1.map Prod.fst).Nodup := by
    rw [keys_of_skel _ _ hs1]
    exact hnd
  exact layoutSig_iff st1 st2 (hs1.trans hs2.symm) hnd1

/-- Witness for C9: the two stride layouts of one rank-2 array, produced by
the identity and the swapped permutation. -/
theorem layout_signature_deterministic_witness :
    applyConfig [("A", exA)] [["A"]] [[0, 1]] =
      .ok ((exYields2.getD 0 default).arrays, ["A"]) ∧
    applyConfig [("A", exA)] [["A"]] [[1, 0]] =
      .ok ((exYields2.getD 1 default).arrays, ["A"]) ∧
    (layoutSig (exYields2.getD 0 default).arrays =
        layoutSig (exYields2.getD 1 default).arrays ↔
      ∀ a d1 d2,
        alistGet (exYields2.getD 0 default).arrays a = some d1 →
        alistGet (exYields2.getD 1 default).arrays a = some d2 →
        d1.transient = false → d1.strides = d2.strides) :=
  ⟨by decide, by decide,
   layout_signature_deterministic [("A", exA)] [["A"]] [[0, 1]] [[1, 0]]
     (exYields2.getD 0 default).arrays (exYields2.getD 1 default).arrays
     ["A"] ["A"] (by decide) (by decide) (by decide)⟩

theorem alistGet_map_update {α β : Type} [DecidableEq α] (k : α) (v : β) :
    ∀ (l : List (α × β)), l.any (fun kv => kv.1 = k) = true →
      alistGet (l.map (fun kv => if kv.1 = k then (kv.1, v) else kv)) k =
        some v := by
  intro l
  induction l with
  | nil => intro h; simp at h
  | cons p rest ih =>
    intro h
    by_cases hp : p.1 = k
    · simp only [List.map_cons, if_pos hp]
      rw [alistGet_cons, if_pos hp]
    · simp only [List.map_cons, if_neg hp]
      rw [alistGet_cons, if_neg hp]
      apply ih
      simpa [hp] using h

theorem alistGet_append_new {α β : Type} [DecidableEq α] (k : α) (v : β) :
    ∀ (l : List (α × β)), l.any (fun kv => kv.1 = k) = false →
      alistGet (l ++ [(k, v)]) k = some v := by
  intro l
  induction l with
  | nil => intro _; rw [List.nil_append, alistGet_cons, if_pos rfl]
  | cons p rest ih =>
    intro h
    simp only [List.any_cons, Bool.or_eq_false_iff] at h
    have hp : ¬(p.1 = k) := by
      intro he
      rw [he] at h
      simpa using h.1
    rw [List.cons_append, alistGet_cons, if_neg hp]
    exact ih h.2

theorem alistGet_alistSet {α β : Type} [DecidableEq α]
    (l : List (α × β)) (k : α) (v : β) :
    alistGet (alistSet l k v) k = some v := by
  by_cases h : l.any (fun kv => kv.1 = k) = true
  · simp only [alistSet, h, if_true]
    exact alistGet_map_update k v l h
  · rw [Bool.not_eq_true] at h
    simp only [alistSet, h, Bool.false_eq_true, if_false]
    exact alistGet_append_new k v l h

/-- C10: kernel labels are cache keys and cache file names with no
uniqueness check: when two kernel units share a label and the first
completes its sweep, the second is never measured — the file the first unit
wrote is loaded for it — and the returned report holds exactly one entry
under the shared label, the first unit's results. -/
theorem duplicate_labels_reuse_cache (gb : TuningGroups)
    (mf : Nat → Except Unit Cost) (k1 k2 : Kernel) (fs : Fs)
    (cnt cnt1 : Nat) (gs : Option (List (List String)))
    (yields : List SpaceYield) (r1 : Report) (bc : Option (List String))
    (br : Option Cost)
    (hlabel : k2.label = k1.label)
    (hmiss : alistGet fs (cacheFile k1.label) = none)
    (hsetup : setup_tuning_groups k1.cutout gb = .ok gs)
    (hspace : space k1.cutout.arrays gs = .ok yields)
    (hsweep : sweep mf yields [] none none cnt = (.ok (r1, bc, br), cnt1)) :
    optimizeLoop gb mf [k1, k2] [] fs cnt =
      (.ok [(k1.label, r1)],
       alistSet fs (cacheFile k1.label) (FileContent.valid r1), cnt1) := by
  have hget2 : alistGet (alistSet fs (cacheFile k1.label)
      (FileContent.valid r1)) (cacheFile k2.label) =
      some (FileContent.valid r1) := by
    rw [hlabel]
    exact alistGet_alistSet fs (cacheFile k1.label) (FileContent.valid r1)
  have htr : alistSet (alistSet ([] : List (String × Report)) k1.label r1)
      k2.label r1 = [(k1.label, r1)] := by
    rw [hlabel]
    simp [alistSet]
  simp [optimizeLoop, hmiss, hsetup, hspace, hsweep, hget2, jsonLoad, htr]

/-- Witness for C10: the same kernel unit listed twice; the second
occurrence is served from the cache file the first wrote, and the report
has one entry. -/
theorem duplicate_labels_reuse_cache_witness :
    optimizeLoop TuningGroups.Separate exMf [exKernel, exKernel] [] [] 0 =
      (.ok [("map0", [([("A", [8, 1])], 7), ([("A", [1, 4])], 7)])],
       alistSet [] (cacheFile "map0")
         (FileContent.valid [([("A", [8, 1])], 7), ([("A", [1, 4])], 7)]),
       2) :=
  duplicate_labels_reuse_cache TuningGroups.Separate exMf exKernel exKernel
    [] 0 2 none exYields2 [([("A", [8, 1])], 7), ([("A", [1, 4])], 7)]
    (some ["A"]) (some 7) rfl (by decide) (by decide) (by decide) (by decide)

theorem nodup_keys_eq {α β : Type} :
    ∀ (l : List (α × β)), (l.map Prod.fst).Nodup →
      ∀ e1 e2, e1 ∈ l → e2 ∈ l → e1.1 = e2.1 → e1 = e2 := by
  intro l
  induction l with
  | nil => intro _ e1 e2 h1; simp at h1
  | cons p rest ih =>
    intro hnd e1 e2 h1 h2 he
    simp only [List.map_cons, List.nodup_cons] at hnd
    rcases List.mem_cons.mp h1 with h1h | h1t
    · rcases List.mem_cons.mp h2 with h2h | h2t
      · rw [h1h, h2h]
      · exfalso
        apply hnd.1
        rw [h1h] at he
        rw [he]
        exact List.mem_map.mpr ⟨e2, h2t, rfl⟩
    · rcases List.mem_cons.mp h2 with h2h | h2t
      · exfalso
        apply hnd.1
        rw [h2h] at he
        rw [← he]
        exact List.mem_map.mpr ⟨e1, h1t, rfl⟩
      · exact ih hnd.2 e1 e2 h1t h2t he

theorem groupAdd_keys_nodup (gd : GroupDict) (key : Int × Int) (v : String)
    (h : (gd.map Prod.fst).Nodup) :
    ((groupAdd gd key v).map Prod.fst).Nodup := by
  by_cases hany : gd.any (fun kv => kv.1 = key) = true
  · simp only [groupAdd, hany, if_true]
    have hk : (gd.map (fun kv =>
        if kv.1 = key then (kv.1, kv.2 ++ [v]) else kv)).map Prod.fst =
        gd.map Prod.fst := by
      rw [List.map_map]
      apply List.map_congr_left
      intro kv _
      by_cases hkv : kv.1 = key <;> simp [hkv, Function.comp]
    rw [hk]
    exact h
  · rw [Bool.not_eq_true] at hany
    simp only [groupAdd, hany, Bool.false_eq_true, if_false]
    rw [List.map_append]
    have hkn : key ∉ gd.map Prod.fst := by
      intro hmem
      obtain ⟨kv, hkv, he⟩ := List.mem_map.mp hmem
      have := List.any_eq_false.mp hany kv hkv
      simp [he] at this
    simp [List.nodup_append, h, hkn]

theorem groupAdd_mem_cases (gd : GroupDict) (key : Int × Int) (v : String)
    (e2 : (Int × Int) × List String) (h : e2 ∈ groupAdd gd key v) :
    e2 ∈ gd ∨ (∃ e ∈ gd, e.1 = key ∧ e2 = (e.1, e.2 ++ [v])) ∨
      e2 = (key, [v]) := by
  by_cases hany : gd.any (fun kv => kv.1 = key) = true
  · simp only [groupAdd, hany, if_true] at h
    obtain ⟨kv, hkv, he⟩ := List.mem_map.mp h
    by_cases hk : kv.1 = key
    · right; left
      exact ⟨kv, hkv, hk, by rw [← he]; simp [hk]⟩
    · left
      rw [← he]
      simpa [hk] using hkv
  · rw [Bool.not_eq_true] at hany
    simp only [groupAdd, hany, Bool.false_eq_true, if_false] at h
    rcases List.mem_append.mp h with h1 | h1
    · left; exact h1
    · right; right; simpa using h1

theorem groupAdd_mem_mono (gd : GroupDict) (key : Int × Int) (v a : String)
    (h : ∃ e ∈ gd, a ∈ e.2) :
    ∃ e2 ∈ groupAdd gd key v, a ∈ e2.2 := by
  obtain ⟨e, he, ha⟩ := h
  by_cases hany : gd.any (fun kv => kv.1 = key) = true
  · simp only [groupAdd, hany, if_true]
    refine ⟨if e.1 = key then (e.1, e.2 ++ [v]) else e,
      List.mem_map.mpr ⟨e, he, rfl⟩, ?_⟩
    by_cases hk : e.1 = key <;> simp [hk, ha]
  · rw [Bool.not_eq_true] at hany
    simp only [groupAdd, hany, Bool.false_eq_true, if_false]
    exact ⟨e, List.mem_append.mpr (Or.inl he), ha⟩

theorem groupAdd_self_mem (gd : GroupDict) (key : Int × Int) (v : String) :
    ∃ e2 ∈ groupAdd gd key v, v ∈ e2.2 := by
  by_cases hany : gd.any (fun kv => kv.1 = key) = true
  · obtain ⟨kv, hkv, hk⟩ := List.any_eq_true.mp hany
    simp only [decide_eq_true_eq] at hk
    simp only [groupAdd, hany, if_true]
    refine ⟨(kv.1, kv.2 ++ [v]), ?_, by simp⟩
    apply List.mem_map.mpr
    exact ⟨kv, hkv, by simp [hk]⟩
  · rw [Bool.not_eq_true] at hany
    simp only [groupAdd, hany, Bool.false_eq_true, if_false]
    exact ⟨(key, [v]), List.mem_append.mpr (Or.inr (by simp)), by simp⟩

theorem setupAux_io_inv (cutout : Cutout) :
    ∀ (ns : List DataNode) (seen : List String) (gd : GroupDict),
      (∀ d ∈ ns, (alistGet cutout.arrays d.data).isSome) →
      (∀ a, a ∉ seen →
        firstNode cutout a =
          (ns.filter (ntNode cutout)).find? (fun x => x.data = a)) →
      (gd.map Prod.fst).Nodup →
      (∀ e ∈ gd, e.1 = ((0 : Int), (-1 : Int)) ∨ e.1 = (1, -1)) →
      (∀ e ∈ gd, ∀ a ∈ e.2, arrClass cutout a = some e.1.1) →
      (∀ a ∈ seen, ∃ e ∈ gd, a ∈ e.2) →
      ∃ seen2 gd2,
        setupAux cutout TuningGroups.Inputs_Outputs ns seen gd =
          .ok (seen2, gd2) ∧
        (gd2.map Prod.fst).Nodup ∧
        (∀ e ∈ gd2, e.1 = ((0 : Int), (-1 : Int)) ∨ e.1 = (1, -1)) ∧
        (∀ e ∈ gd2, ∀ a ∈ e.2, arrClass cutout a = some e.1.1) ∧
        (∀ a ∈ seen, ∃ e ∈ gd2, a ∈ e.2) ∧
        (∀ d ∈ ns, ntNode cutout d = true → ∃ e ∈ gd2, d.data ∈ e.2) := by
  intro ns
  induction ns with
  | nil =>
    intro seen gd _ _ hnd hkeys hclass hseen
    exact ⟨seen, gd, rfl, hnd, hkeys, hclass, hseen,
      by intro d hd; simp at hd⟩
  | cons d ds ih =>
    intro seen gd hlook hfirst hnd hkeys hclass hseen
    cases hget : alistGet cutout.arrays d.data with
    | none =>
      have hds := hlook d (by simp)
      rw [hget] at hds
      simp at hds
    | some desc =>
      have hlook2 : ∀ x ∈ ds, (alistGet cutout.arrays x.data).isSome :=
        fun x hx => hlook x (by simp [hx])
      by_cases htr : desc.transient = true
      · have hnt : ntNode cutout d = false := by simp [ntNode, hget, htr]
        have hstep : setupAux cutout TuningGroups.Inputs_Outputs (d :: ds)
            seen gd =
            setupAux cutout TuningGroups.Inputs_Outputs ds seen gd := by
          simp [setupAux, hget, htr]
        have hfirst2 : ∀ a, a ∉ seen →
            firstNode cutout a =
              (ds.filter (ntNode cutout)).find? (fun x => x.data = a) := by
          intro a ha
          rw [hfirst a ha, List.filter_cons_of_neg (by simp [hnt])]
        obtain ⟨s2, g2, hrun, h1, h2, h3, h4, h5⟩ :=
          ih seen gd hlook2 hfirst2 hnd hkeys hclass hseen
        refine ⟨s2, g2, by rw [hstep]; exact hrun, h1, h2, h3, h4, ?_⟩
        intro x hx hntx
        rcases List.mem_cons.mp hx with hxd | hxds
        · rw [hxd, hnt] at hntx
          cases hntx
        · exact h5 x hxds hntx
      · rw [Bool.not_eq_true] at htr
        have hnt : ntNode cutout d = true := by simp [ntNode, hget, htr]
        by_cases hsn : d.data ∈ seen
        · have hstep : setupAux cutout TuningGroups.Inputs_Outputs (d :: ds)
              seen gd =
              setupAux cutout TuningGroups.Inputs_Outputs ds seen gd := by
            simp [setupAux, hget, htr, hsn]
          have hfirst2 : ∀ a, a ∉ seen →
              firstNode cutout a =
                (ds.filter (ntNode cutout)).find? (fun x => x.data = a) := by
            intro a ha
            have hne : ¬(d.data = a) := fun he => ha (he ▸ hsn)
            rw [hfirst a ha, List.filter_cons_of_pos (by simp [hnt]),
              List.find?_cons_of_neg _ (by simpa using hne)]
          obtain ⟨s2, g2, hrun, h1, h2, h3, h4, h5⟩ :=
            ih seen gd hlook2 hfirst2 hnd hkeys hclass hseen
          refine ⟨s2, g2, by rw [hstep]; exact hrun, h1, h2, h3, h4, ?_⟩
          intro x hx hntx
          rcases List.mem_cons.mp hx with hxd | hxds
          · rw [hxd]
            exact h4 d.data hsn
          · exact h5 x hxds hntx
        · set key : Int × Int :=
            ((if d.in_degree = 0 then (0 : Int) else 1), (-1 : Int))
            with hkeydef
          have hstep : setupAux cutout TuningGroups.Inputs_Outputs (d :: ds)
              seen gd =
              setupAux cutout TuningGroups.Inputs_Outputs ds
                (seen ++ [d.data]) (groupAdd gd key d.data) := by
            simp [setupAux, hget, htr, hsn, hkeydef]
          have hfn : firstNode cutout d.data = some d := by
            rw [hfirst d.data hsn, List.filter_cons_of_pos (by simp [hnt]),
              List.find?_cons_of_pos _ (by simp)]
          have hcls : arrClass cutout d.data = some (ioClassOf d) := by
            simp [arrClass, hfn]
          have hkey1 : key.1 = ioClassOf d := by simp [hkeydef, ioClassOf]
          have hnd2 := groupAdd_keys_nodup gd key d.data hnd
          have hkeyshape : key = ((0 : Int), (-1 : Int)) ∨ key = (1, -1) := by
            by_cases hdeg : d.in_degree = 0
            · left; simp [hkeydef, hdeg]
            · right; simp [hkeydef, hdeg]
          have hkeys2 : ∀ e ∈ groupAdd gd key d.data,
              e.1 = ((0 : Int), (-1 : Int)) ∨ e.1 = (1, -1) := by
            intro e he
            rcases groupAdd_mem_cases gd key d.data e he with
              h1 | ⟨e0, _, hk0, he2⟩ | h1
            · exact hkeys e h1
            · rw [he2]
              simpa [hk0] using hkeyshape
            · rw [h1]
              simpa using hkeyshape
          have hclass2 : ∀ e ∈ groupAdd gd key d.data, ∀ a ∈ e.2,
              arrClass cutout a = some e.1.1 := by
            intro e he a ha
            rcases groupAdd_mem_cases gd key d.data e he with
              h1 | ⟨e0, he0, hk0, he2⟩ | h1
            · exact hclass e h1 a ha
            · rw [he2] at ha ⊢
              simp only at ha ⊢
              rcases List.mem_append.mp ha with ha1 | ha1
              · exact hclass e0 he0 a ha1
              · have had : a = d.data := by simpa using ha1
                rw [had, hcls, hk0, hkey1]
            · rw [h1] at ha ⊢
              simp only at ha ⊢
              have had : a = d.data := by simpa using ha
              rw [had, hcls]
              simp [ioClassOf]
          have hseen3 : ∀ a ∈ seen ++ [d.data],
              ∃ e ∈ groupAdd gd key d.data, a ∈ e.2 := by
            intro a ha
            rcases List.mem_append.mp ha with ha1 | ha1
            · exact groupAdd_mem_mono gd key d.data a (hseen a ha1)
            · have had : a = d.data := by simpa using ha1
              rw [had]
              exact groupAdd_self_mem gd key d.data
          have hfirst2 : ∀ a, a ∉ seen ++ [d.data] →
              firstNode cutout a =
                (ds.filter (ntNode cutout)).find? (fun x => x.data = a) := by
            intro a ha
            simp only [List.mem_append, List.mem_singleton] at ha
            push_neg at ha
            have hne : ¬(d.data = a) := fun he => ha.2 he.symm
            rw [hfirst a ha.1, List.filter_cons_of_pos (by simp [hnt]),
              List.find?_cons_of_neg _ (by simpa using hne)]
          obtain ⟨s2, g2, hrun, h1, h2, h3, h4, h5⟩ :=
            ih (seen ++ [d.data]) (groupAdd gd key d.data) hlook2 hfirst2
              hnd2 hkeys2 hclass2 hseen3
          refine ⟨s2, g2, by rw [hstep]; exact hrun, h1, h2, h3, ?_, ?_⟩
          · intro a ha
            exact h4 a (by simp [ha])
          · intro x hx hntx
            rcases List.mem_cons.mp hx with hxd | hxds
            · rw [hxd]
              exact h4 d.data (by simp)
            · exact h5 x hxds hntx

/-- C8, amended: under the `Inputs_Outputs` policy, `setup_tuning_groups`
succeeds and partitions the kernel's non-transient arrays into at most two
groups according to the in-degree of each array's first-encountered access
node (`arrClass`: zero in-degree at the first node files the array under
inputs, nonzero under outputs, later nodes are ignored) — each group is
homogeneous in that classification, every non-transient array that occurs
is in some group, and two groups whose members share a classification are
the same group. The original claim's criterion, pure input versus written
anywhere in the kernel, is not what the code computes: an array read before
it is written is filed under inputs. -/
theorem inputs_outputs_two_groups (cutout : Cutout)
    (hlook : ∀ d ∈ cutout.states.flatMap (fun s => s.dataNodes),
      (alistGet cutout.arrays d.data).isSome) :
    ∃ gs, setup_tuning_groups cutout TuningGroups.Inputs_Outputs =
        .ok (some gs) ∧
      gs.length ≤ 2 ∧
      (∀ g ∈ gs, ∀ a ∈ g, ∀ b ∈ g, arrClass cutout a = arrClass cutout b) ∧
      (∀ d ∈ ntOccurs cutout, ∃ g ∈ gs, d.data ∈ g) ∧
      (∀ g1 ∈ gs, ∀ g2 ∈ gs, ∀ a ∈ g1, ∀ b ∈ g2,
        arrClass cutout a = arrClass cutout b → g1 = g2) := by
  obtain ⟨seen2, gd2, hrun, hnd2, hkeys2, hclass2, _, hnodes2⟩ :=
    setupAux_io_inv cutout (cutout.states.flatMap (fun s => s.dataNodes))
      [] [] hlook (fun a _ => rfl) (by simp) (by simp) (by simp) (by simp)
  refine ⟨gd2.map (fun kv => kv.2), ?_, ?_, ?_, ?_, ?_⟩
  · simp [setup_tuning_groups, hrun]
  · have hsub : gd2.map Prod.fst ⊆
        [((0 : Int), (-1 : Int)), ((1 : Int), (-1 : Int))] := by
      intro x hx
      obtain ⟨e, he, hex⟩ := List.mem_map.mp hx
      rcases hkeys2 e he with h1 | h1 <;> simp [← hex, h1]
    have hsp := (hnd2.subperm hsub).length_le
    simp only [List.length_map] at hsp ⊢
    simpa using hsp
  · intro g hg a ha b hb
    obtain ⟨e, he, hev⟩ := List.mem_map.mp hg
    rw [← hev] at ha hb
    rw [hclass2 e he a ha, hclass2 e he b hb]
  · intro d hd
    have hd2 := List.mem_filter.mp hd
    obtain ⟨e, he, hde⟩ := hnodes2 d hd2.1 hd2.2
    exact ⟨e.2, List.mem_map.mpr ⟨e, he, rfl⟩, hde⟩
  · intro g1 hg1 g2 hg2 a ha b hb hab
    obtain ⟨e1, he1, hev1⟩ := List.mem_map.mp hg1
    obtain ⟨e2, he2, hev2⟩ := List.mem_map.mp hg2
    rw [← hev1] at ha
    rw [← hev2] at hb
    have hc1 := hclass2 e1 he1 a ha
    have hc2 := hclass2 e2 he2 b hb
    rw [hc1, hc2] at hab
    have hfst : e1.1.1 = e2.1.1 := Option.some_injective Int hab
    have hsnd : e1.1.2 = e2.1.2 := by
      rcases hkeys2 e1 he1 with h1 | h1 <;>
        rcases hkeys2 e2 he2 with h2 | h2 <;> simp [h1, h2]
    have hkey : e1.1 = e2.1 := Prod.ext hfst hsnd
    have := nodup_keys_eq gd2 hnd2 e1 e2 he1 he2 hkey
    rw [← hev1, ← hev2, this]

/-- Witness for C8: a kernel with two pure inputs and one written array
yields exactly the two groups of inputs and outputs. -/
theorem inputs_outputs_two_groups_witness :
    setup_tuning_groups exIOCutout TuningGroups.Inputs_Outputs =
      .ok (some [["A", "B"], ["C"]]) ∧
    (∃ gs, setup_tuning_groups exIOCutout TuningGroups.Inputs_Outputs =
        .ok (some gs) ∧
      gs.length ≤ 2 ∧
      (∀ g ∈ gs, ∀ a ∈ g, ∀ b ∈ g,
        arrClass exIOCutout a = arrClass exIOCutout b) ∧
      (∀ d ∈ ntOccurs exIOCutout, ∃ g ∈ gs, d.data ∈ g) ∧
      (∀ g1 ∈ gs, ∀ g2 ∈ gs, ∀ a ∈ g1, ∀ b ∈ g2,
        arrClass exIOCutout a = arrClass exIOCutout b → g1 = g2)) :=
  ⟨by decide, inputs_outputs_two_groups exIOCutout (by decide)⟩

/-- C8 counterexample: the original claim's partition criterion (zero
incoming data dependency anywhere, i.e. pure input, versus written) is
refuted at `exIOCutout`. Array `A` is non-transient and is written — its
second access node has in-degree 3 — so the claim puts it in the written
bucket with `C`; the code instead classifies `A` by its first access node
(in-degree 0) and groups it with the pure input `B`, away from `C`, while
`B` is a pure input (every node accessing it has in-degree 0). -/
theorem written_array_grouped_with_inputs :
    setup_tuning_groups exIOCutout TuningGroups.Inputs_Outputs =
      .ok (some [["A", "B"], ["C"]]) ∧
    (⟨"A", 3⟩ : DataNode) ∈
      exIOCutout.states.flatMap (fun s => s.dataNodes) ∧
    (alistGet exIOCutout.arrays "A").map ArrayDesc.transient = some false ∧
    ¬ (∃ g ∈ [["A", "B"], ["C"]], "A" ∈ g ∧ "C" ∈ g) ∧
    (∃ g ∈ [["A", "B"], ["C"]], "A" ∈ g ∧ "B" ∈ g) ∧
    (∀ d ∈ exIOCutout.states.flatMap (fun s => s.dataNodes),
      d.data = "B" → d.in_degree = 0) := by
  decide
